import Mathlib

/- Verification of the directory comparator in `src/main.py`.

   Shallow embedding conventions:
   * filesystem paths are lists of path components (`List String`);
   * file contents are byte sequences (`List Nat`);
   * the SHA-256 hex digest provided by the external `hashlib` library is an
     abstract parameter `sha : List Nat → String` mapping the byte sequence fed
     through `update` calls to the final `hexdigest()` string;
   * directory trees are finite trees of named files and subdirectories;
   * Python exceptions are modeled with `Option` results. -/

namespace Comparator

/-- The `Action` enumeration from the source. -/
inductive Action where
  | COPY
  | MODIFY
  | NO_ACTION
deriving DecidableEq, Repr

/-- `Action.mutation_options()` returns the Python set of the two mutating
kinds, modeled as the list of its elements. -/
def Action.mutation_options : List Action :=
  [Action.COPY, Action.MODIFY]

/-- Python iterates the set `Action.mutation_options()` in an unspecified
order; the iteration order is one of the two permutations of the set. -/
def isMutationOrder (l : List Action) : Prop :=
  l = [Action.COPY, Action.MODIFY] ∨ l = [Action.MODIFY, Action.COPY]

instance (l : List Action) : Decidable (isMutationOrder l) := by
  unfold isMutationOrder; infer_instance

/-- The `Result` dataclass: `source_path`, `target_path`, `action`. -/
structure Result where
  source_path : List String
  target_path : List String
  action : Action
deriving DecidableEq, Repr

/-- The `FileMetadata` dataclass: `file_extension`, `file_size`, `file_hash`.
Comparing `as_tuple()` values in Python compares all three fields, i.e.
structure equality here. -/
structure FileMetadata where
  file_extension : String
  file_size : Nat
  file_hash : String
deriving DecidableEq, Repr

/-- Index of the last occurrence of character `c` in `l`, if any. -/
def lastIdxOf (c : Char) (l : List Char) : Option Nat :=
  ((l.enum.filter (fun p => p.2 == c)).getLast?).map (fun p => p.1)

/-- `os.path.splitext(path)[1]` restricted to a basename `b` (a single path
component, no separators).  Per CPython `genericpath._splitext`: the extension
starts at the last dot of the basename provided at least one character before
that dot is not a dot (leading dots of the basename do not start an
extension); the returned extension includes the dot; otherwise it is empty.
On a full path only the basename (the part after the last separator) matters,
so this applied to the last component is exactly `os.path.splitext(path)[1]`. -/
def splitextExt (b : String) : String :=
  let cs := b.toList
  match lastIdxOf '.' cs with
  | none => ""
  | some i => if (cs.take i).any (fun ch => ch != '.') then String.mk (cs.drop i) else ""

/-- Extension of a full path = `splitextExt` of its basename (last component). -/
def pathExt (p : List String) : String :=
  splitextExt (p.getLastD "")

/-- The claim's reading of the extension rule: the substring strictly after
the last dot of the basename (empty when the basename has no dot). -/
def extAfterLastDot (b : String) : String :=
  let cs := b.toList
  match lastIdxOf '.' cs with
  | none => ""
  | some i => String.mk (cs.drop (i + 1))

/-- The chunk sequence produced by `iter(lambda: file.read(block_size), b"")`:
repeatedly take `block_size` bytes from the remaining content; iteration stops
at the first empty read (which also happens immediately when `block_size = 0`,
since `read(0)` returns the empty byte string).  Fuel-indexed so that the
function is structurally recursive; `length c + 1` fuel always suffices. -/
def readChunksAux (bs : Nat) : Nat → List Nat → List (List Nat)
  | 0, _ => []
  | fuel + 1, c =>
    let chunk := c.take bs
    if chunk.isEmpty then [] else chunk :: readChunksAux bs fuel (c.drop bs)

/-- All chunks read from content `c` with block size `bs`. -/
def readChunks (bs : Nat) (c : List Nat) : List (List Nat) :=
  readChunksAux bs (c.length + 1) c

/-- `get_file_hash(file_path, algorithm="sha256", block_size=4096)`: feed the
file's bytes chunk by chunk to the hash object, return `hexdigest()`.  A
`hashlib` object's `hexdigest` is a function of the concatenation of all the
bytes passed to `update`, so the call is modeled as `sha` applied to the
concatenation (in order) of the chunks read. -/
def get_file_hash (sha : List Nat → String) (c : List Nat) (block_size : Nat := 4096) : String :=
  sha ((readChunks block_size c).foldl (fun a b => a ++ b) [])

/-- `get_file_metadata(file_path)` for a file whose path is `p` and whose
content on disk is `c`: `os.path.splitext(file_path)[1]`, `os.path.getsize`
(the exact byte count, i.e. `c.length`), and `get_file_hash`. -/
def get_file_metadata (sha : List Nat → String) (p : List String) (c : List Nat) : FileMetadata :=
  { file_extension := pathExt p
    file_size := c.length
    file_hash := get_file_hash sha c }

/-- A directory tree: named regular files (with contents) and named
subdirectories, in listing order. -/
inductive FSTree where
  | node (files : List (String × List Nat)) (dirs : List (String × FSTree))

/-- The files of the root node. -/
def FSTree.files : FSTree → List (String × List Nat)
  | .node fs _ => fs

/-- The subdirectories of the root node. -/
def FSTree.dirs : FSTree → List (String × FSTree)
  | .node _ ds => ds

/-- All names listed in the root directory (files first, then subdirectories,
in listing order). -/
def FSTree.names (t : FSTree) : List String :=
  t.files.map (fun f => f.1) ++ t.dirs.map (fun d => d.1)

/-- Content of the regular file called `n` in the root directory, if any. -/
def FSTree.fileLookup (t : FSTree) (n : String) : Option (List Nat) :=
  (t.files.find? (fun f => f.1 == n)).map (fun f => f.2)

/-- Subtree of the subdirectory called `n` of the root directory, if any. -/
def FSTree.dirLookup (t : FSTree) (n : String) : Option FSTree :=
  (t.dirs.find? (fun d => d.1 == n)).map (fun d => d.2)

/-- Content of the regular file at relative path `p` under `t`; `none` when
`p` is absent or names a directory.  `os.path.isfile` at `p` under root `t`
is `(fileAt t p).isSome`. -/
def fileAt (t : FSTree) : List String → Option (List Nat)
  | [] => none
  | [n] => t.fileLookup n
  | n :: rest => match t.dirLookup n with
    | some sub => fileAt sub rest
    | none => none

/-- The subtree rooted at relative path `p` under `t`, if `p` names a
directory (`[]` names `t` itself).  `os.path.isdir` at `p` under root `t` is
`(dirAt t p).isSome`. -/
def dirAt (t : FSTree) : List String → Option FSTree
  | [] => some t
  | n :: rest => match t.dirLookup n with
    | some sub => dirAt sub rest
    | none => none

/-- `get_file_metadata` read through a tree: the fingerprint of the regular
file at relative path `p` under `t`, when it exists. -/
def metadataAt (sha : List Nat → String) (t : FSTree) (p : List String) : Option FileMetadata :=
  (fileAt t p).map (get_file_metadata sha p)

mutual

/-- Number of directory nodes of a tree (used as an induction measure). -/
def FSTree.size : FSTree → Nat
  | .node _ dirs => 1 + sizeDirs dirs

/-- Total size of the subtrees of a directory list. -/
def sizeDirs : List (String × FSTree) → Nat
  | [] => 0
  | (_, sub) :: rest => FSTree.size sub + sizeDirs rest

end

mutual

/-- The relative paths (with contents) of all regular files under `t`, in
`os.walk` top-down order: the root's files first in listing order, then the
files of each subdirectory, recursively.  This is the order in which
`compare_directories` discovers source files. -/
def walkFiles : FSTree → List (List String × List Nat)
  | .node files dirs => files.map (fun fc => ([fc.1], fc.2)) ++ walkFilesDirs dirs

/-- Files found by descending into a list of subdirectories, in order. -/
def walkFilesDirs : List (String × FSTree) → List (List String × List Nat)
  | [] => []
  | (n, sub) :: rest => (walkFiles sub).map (fun rc => (n :: rc.1, rc.2)) ++ walkFilesDirs rest

end

/-- The body of the `compare_directories` loop for one discovered source file
with relative path `r` and content `c`: if `os.path.isfile(target_path)`
(here: `fileAt tgt r` is `some`), compare the two metadata tuples and pick
`NO_ACTION` or `MODIFY`; otherwise `COPY`.  The full source and target paths
are the roots joined with `r` (as `os.path.join(target_dir,
os.path.relpath(source_path, source_dir))` does). -/
def classifyFile (sha : List Nat → String) (sroot troot : List String)
    (tgt : FSTree) (r : List String) (c : List Nat) : Action :=
  match fileAt tgt r with
  | some tc =>
    if get_file_metadata sha (sroot ++ r) c = get_file_metadata sha (troot ++ r) tc then
      Action.NO_ACTION
    else
      Action.MODIFY
  | none => Action.COPY

/-- `compare_directories(source_dir, target_dir)`: one `Result` per regular
file discovered by walking the source tree, in walk order, classified by the
loop body above.  `sroot`/`troot` are the root paths, `src`/`tgt` the trees
on disk under them. -/
def compare_directories (sha : List Nat → String) (sroot troot : List String)
    (src tgt : FSTree) : List Result :=
  (walkFiles src).map (fun rc =>
    { source_path := sroot ++ rc.1
      target_path := troot ++ rc.1
      action := classifyFile sha sroot troot tgt rc.1 rc.2 })

/-- One step of the `group_by` loop: append `t` to the group of key `k`,
creating the group at the end when absent (as a `defaultdict` does). -/
def insertGrouped {α β : Type} [DecidableEq β] : List (β × List α) → β → α → List (β × List α)
  | [], k, t => [(k, [t])]
  | (k', l) :: rest, k, t =>
    if k' = k then (k', l ++ [t]) :: rest else (k', l) :: insertGrouped rest k t

/-- `group_by(things, grouper)`: a `defaultdict(list)` filled by appending
each element to the group of its key, in input order.  Modeled as an
association list in key-insertion order. -/
def group_by {α β : Type} [DecidableEq β] (things : List α) (grouper : α → β) :
    List (β × List α) :=
  things.foldl (fun acc t => insertGrouped acc (grouper t) t) []

/-- `grouped.get(key, [])`. -/
def getGroup {α β : Type} [DecidableEq β] (g : List (β × List α)) (k : β) : List α :=
  match g.find? (fun e => decide (e.1 = k)) with
  | some e => e.2
  | none => []

/-- Per-file data tracked by the apply phase: content plus the metadata that
`shutil.copy2` preserves (modification time and permission bits). -/
structure FileData where
  content : List Nat
  mtime : Nat
  mode : Nat
deriving DecidableEq, Repr

/-- A filesystem node seen by the apply phase. -/
inductive FNode where
  | file (d : FileData)
  | dir
deriving DecidableEq, Repr

/-- The apply phase's view of the world: a finite map from absolute paths to
nodes, as an association list. -/
abbrev FS : Type := List (List String × FNode)

/-- Node at path `p`, if any. -/
def fsLookup (fs : FS) (p : List String) : Option FNode :=
  (fs.find? (fun e => decide (e.1 = p))).map (fun e => e.2)

/-- Write node `n` at path `p` (replace if present, else add). -/
def fsSet : FS → List String → FNode → FS
  | [], p, n => [(p, n)]
  | e :: rest, p, n => if e.1 = p then (p, n) :: rest else e :: fsSet rest p n

/-- `os.path.dirname` on a component list. -/
def dirname (p : List String) : List String := p.dropLast

/-- The basename of `p` as a (0- or 1-element) component list. -/
def basenameList (p : List String) : List String := p.drop (p.length - 1)

/-- `shutil.copy2(src, dst)`: requires `src` to be a regular file; when `dst`
is an existing directory the real destination is `dst/basename(src)`; writing
requires the destination's parent to be an existing directory and the
destination itself not to be a directory; on success the destination holds the
source's bytes and, via `copystat`, its modification time and permission bits
(the whole `FileData` here), overwriting any existing file.  `copy2` does NOT
create missing parent directories.  `none` models the raised `OSError`. -/
def copy2 (fs : FS) (src dst : List String) : Option FS :=
  match fsLookup fs src with
  | some (FNode.file d) =>
    let dst' := if fsLookup fs dst = some FNode.dir then dst ++ basenameList src else dst
    if fsLookup fs (dirname dst') = some FNode.dir ∧ ¬ fsLookup fs dst' = some FNode.dir then
      some (fsSet fs dst' (FNode.file d))
    else
      none
  | _ => none

/-- The mutation loop of `do_action` when `dry_run` is false: run
`shutil.copy2` on each entry in order; the first failure raises, so entries
after it are not processed.  Returns the final filesystem, the successfully
processed entries in order, and the failing entry if any. -/
def applyLoop (fs : FS) : List Result → FS × List Result × Option Result
  | [] => (fs, [], none)
  | r :: rest =>
    match copy2 fs r.source_path r.target_path with
    | none => (fs, [], some r)
    | some fs' =>
      match applyLoop fs' rest with
      | (fs'', done, err) => (fs'', r :: done, err)

/-- The chained mutation sequence
`chain(*map(lambda key: grouped.get(key, []), Action.mutation_options()))`,
given the iteration order of the set. -/
def mutationList (mutOrder : List Action) (grouped : List (Action × List Result)) :
    List Result :=
  (mutOrder.map (fun k => getGroup grouped k)).flatten

/-- Everything observable about a `do_action` run: the final filesystem, the
`NO_ACTION` entries reported first (`to_be_skipped`), the mutation entries
processed (reported, and copied when not a dry run) in order, and the first
entry whose copy raised, if any. -/
structure ApplyOutcome where
  fs : FS
  skipped : List Result
  processed : List Result
  error : Option Result
deriving DecidableEq, Repr

/-- `do_action(results, dry_run)`.  `mutOrder` is the iteration order of the
Python set `Action.mutation_options()`.  The `NO_ACTION` group is reported
first as a block; then the mutation loop runs over the chained `COPY`/`MODIFY`
groups: on a dry run it only reports each entry; otherwise it copies each
entry (aborting at the first failure, whose exception propagates). -/
def do_action (mutOrder : List Action) (fs : FS) (results : List Result)
    (dry_run : Bool := true) : ApplyOutcome :=
  let grouped := group_by results (fun r => r.action)
  let to_be_skipped := getGroup grouped Action.NO_ACTION
  let muts := mutationList mutOrder grouped
  if dry_run then
    { fs := fs, skipped := to_be_skipped, processed := muts, error := none }
  else
    match applyLoop fs muts with
    | (fs', done, err) => { fs := fs', skipped := to_be_skipped, processed := done, error := err }

/-- `filecmp.DEFAULT_IGNORES`: names that `dircmp` skips when `ignore=None`
(passing `None` keeps the default ignore list). -/
def DEFAULT_IGNORES : List String :=
  ["RCS", "CVS", "tags", ".git", ".hg", ".bzr", "_darcs", "__pycache__"]

/-- The directory listing `dircmp` works from: all names, minus the hidden
(`.`/`..`, never present here) and ignored ones. -/
def FSTree.listing (t : FSTree) : List String :=
  t.names.filter (fun n => decide (¬ n ∈ DEFAULT_IGNORES))

/-- `dircmp.common`: listed names present on both sides. -/
def common (a b : FSTree) : List String :=
  a.listing.filter (fun n => decide (n ∈ b.listing))

/-- `dircmp.left_only`. -/
def left_only (a b : FSTree) : List String :=
  a.listing.filter (fun n => decide (¬ n ∈ b.listing))

/-- `dircmp.right_only`. -/
def right_only (a b : FSTree) : List String :=
  b.listing.filter (fun n => decide (¬ n ∈ a.listing))

/-- `dircmp.common_dirs`: common names that are directories on both sides. -/
def common_dirs (a b : FSTree) : List String :=
  (common a b).filter (fun n => (a.dirLookup n).isSome && (b.dirLookup n).isSome)

/-- `dircmp.common_files`: common names that are regular files on both sides.
(Common names of mismatched type end up in `common_funny`, which
`are_directories_equal` never inspects.) -/
def common_files (a b : FSTree) : List String :=
  (common a b).filter (fun n => (a.fileLookup n).isSome && (b.fileLookup n).isSome)

/-- `dircmp.diff_files` with `shallow=False`: common files whose byte contents
differ.  (`funny_files`, files that could not be read, is always empty here:
every modeled file is readable.) -/
def diff_files (a b : FSTree) : List String :=
  (common_files a b).filter (fun n => decide (¬ a.fileLookup n = b.fileLookup n))

mutual

/-- `are_directories_equal(dir1, dir2)`: false when `left_only`, `right_only`,
`diff_files` or `funny_files` is non-empty (`funny_files` is always empty
here), else the conjunction of the recursive comparison over
`common_dirs`.  The loop over `comparison.common_dirs` is modeled as a loop
over the left tree's subdirectory list, recursing exactly for the names in
`common_dirs` (the same set of recursive calls). -/
def are_directories_equal : FSTree → FSTree → Bool
  | FSTree.node afiles adirs, b =>
    let a := FSTree.node afiles adirs
    if (left_only a b).isEmpty && (right_only a b).isEmpty && (diff_files a b).isEmpty then
      commonDirsEqual (common_dirs a b) b adirs
    else
      false

/-- The loop `for common_dir in comparison.common_dirs: ...` of
`are_directories_equal`. -/
def commonDirsEqual (cds : List String) (b : FSTree) : List (String × FSTree) → Bool
  | [] => true
  | (n, sub) :: rest =>
    (if n ∈ cds then
      match b.dirLookup n with
      | some bsub => are_directories_equal sub bsub
      | none => true
    else true) && commonDirsEqual cds b rest

end

mutual

/-- The relative paths of all entries (files and directories) under `t`. -/
def entryPaths : FSTree → List (List String)
  | FSTree.node files dirs => files.map (fun f => [f.1]) ++ entryPathsDirs dirs

/-- Entry paths contributed by a list of subdirectories: each subdirectory
name itself, and its entries prefixed with its name. -/
def entryPathsDirs : List (String × FSTree) → List (List String)
  | [] => []
  | (n, sub) :: rest =>
    ([n] :: (entryPaths sub).map (fun q => n :: q)) ++ entryPathsDirs rest

end

/-- The claim's contract for `are_directories_equal`, in its own words: the
two trees contain identical sets of relative paths, and every pair of regular
files at the same relative path is byte-identical. -/
def specEqual (a b : FSTree) : Bool :=
  (entryPaths a).all (fun p => decide (p ∈ entryPaths b)) &&
  (entryPaths b).all (fun p => decide (p ∈ entryPaths a)) &&
  (entryPaths a).all (fun p =>
    match fileAt a p, fileAt b p with
    | some ca, some cb => decide (ca = cb)
    | _, _ => true)

mutual

/-- Well-formedness of a modeled tree: within each directory all names (of
files and subdirectories together) are distinct, as on a real filesystem. -/
def wfTree : FSTree → Bool
  | FSTree.node files dirs =>
    decide ((files.map (fun f => f.1) ++ dirs.map (fun d => d.1)).Nodup) && wfDirs dirs

/-- `wfTree` for every subdirectory of a list. -/
def wfDirs : List (String × FSTree) → Bool
  | [] => true
  | (_, sub) :: rest => wfTree sub && wfDirs rest

end

mutual

/-- No entry anywhere in the tree bears a name in `DEFAULT_IGNORES`. -/
def noIgnored : FSTree → Bool
  | FSTree.node files dirs =>
    files.all (fun f => decide (¬ f.1 ∈ DEFAULT_IGNORES)) &&
    dirs.all (fun d => decide (¬ d.1 ∈ DEFAULT_IGNORES)) &&
    noIgnoredDirs dirs

/-- `noIgnored` for every subdirectory of a list. -/
def noIgnoredDirs : List (String × FSTree) → Bool
  | [] => true
  | (_, sub) :: rest => noIgnored sub && noIgnoredDirs rest

end

/-- Names present on both sides (unfiltered). -/
def commonNames (a b : FSTree) : List String :=
  a.names.filter (fun n => decide (n ∈ b.names))

mutual

/-- No common name is a regular file on one side and a directory on the
other, hereditarily through common subdirectories. -/
def noTypeClash : FSTree → FSTree → Bool
  | FSTree.node afiles adirs, b =>
    let a := FSTree.node afiles adirs
    (commonNames a b).all (fun n =>
      decide (¬ ((a.fileLookup n).isSome ∧ (b.dirLookup n).isSome)) &&
      decide (¬ ((a.dirLookup n).isSome ∧ (b.fileLookup n).isSome))) &&
    noTypeClashDirs b adirs

/-- `noTypeClash` between each left subdirectory and the same-named right
subdirectory, when the latter exists. -/
def noTypeClashDirs (b : FSTree) : List (String × FSTree) → Bool
  | [] => true
  | (n, sub) :: rest =>
    (match b.dirLookup n with
     | some bsub => noTypeClash sub bsub
     | none => true) && noTypeClashDirs b rest

end

/- ------------------------------------------------------------------ -/
/- Helper lemmas.                                                      -/
/- ------------------------------------------------------------------ -/

lemma getGroup_nil {α β : Type} [DecidableEq β] (k : β) :
    getGroup ([] : List (β × List α)) k = [] := rfl

lemma getGroup_cons {α β : Type} [DecidableEq β] (k0 : β) (l : List α)
    (g : List (β × List α)) (k : β) :
    getGroup ((k0, l) :: g) k = if k0 = k then l else getGroup g k := by
  by_cases h : k0 = k <;> simp [getGroup, List.find?_cons, h]

lemma getGroup_insertGrouped {α β : Type} [DecidableEq β] (acc : List (β × List α))
    (k : β) (t : α) (k' : β) :
    getGroup (insertGrouped acc k t) k' =
      if k = k' then getGroup acc k' ++ [t] else getGroup acc k' := by
  induction acc with
  | nil =>
    by_cases h : k = k' <;> simp [insertGrouped, getGroup_cons, getGroup_nil, h]
  | cons e rest ih =>
    obtain ⟨k0, l⟩ := e
    by_cases h0 : k0 = k
    · subst h0
      by_cases h : k0 = k' <;> simp [insertGrouped, getGroup_cons, h]
    · by_cases h : k0 = k'
      · subst h
        simp [insertGrouped, getGroup_cons, h0, Ne.symm h0]
      · simp [insertGrouped, getGroup_cons, h0, h, ih]

lemma group_by_getGroup {α β : Type} [DecidableEq β] (g : α → β) (l : List α) (k : β) :
    getGroup (group_by l g) k = l.filter (fun t => decide (g t = k)) := by
  suffices h : ∀ acc : List (β × List α),
      getGroup (l.foldl (fun a t => insertGrouped a (g t) t) acc) k =
        getGroup acc k ++ l.filter (fun t => decide (g t = k)) by
    simpa [group_by, getGroup_nil] using h []
  induction l with
  | nil => intro acc; simp
  | cons t ts ih =>
    intro acc
    by_cases h : g t = k <;>
      simp [List.foldl_cons, ih, getGroup_insertGrouped, List.filter_cons, h]

lemma applyLoop_error_split (l : List Result) :
    ∀ fs fs' done e, applyLoop fs l = (fs', done, some e) →
      ∃ post, l = done ++ e :: post := by
  induction l with
  | nil =>
    intro fs fs' done e h
    simp [applyLoop] at h
  | cons r rest ih =>
    intro fs fs' done e h
    rw [applyLoop] at h
    cases hc : copy2 fs r.source_path r.target_path with
    | none =>
      rw [hc] at h
      simp only [Prod.mk.injEq, Option.some.injEq] at h
      obtain ⟨-, h2, h3⟩ := h
      exact ⟨rest, by rw [← h2, ← h3]; rfl⟩
    | some fs2 =>
      rw [hc] at h
      dsimp only at h
      rcases hl : applyLoop fs2 rest with ⟨fs3, done3, err3⟩
      rw [hl] at h
      simp only [Prod.mk.injEq] at h
      obtain ⟨-, h2, h3⟩ := h
      subst h3
      obtain ⟨post, hpost⟩ := ih fs2 fs3 done3 e hl
      exact ⟨post, by rw [← h2, hpost]; simp⟩

lemma applyLoop_no_error (l : List Result) :
    ∀ fs fs' done, applyLoop fs l = (fs', done, none) → done = l := by
  induction l with
  | nil =>
    intro fs fs' done h
    simp [applyLoop] at h
    exact h.2
  | cons r rest ih =>
    intro fs fs' done h
    rw [applyLoop] at h
    cases hc : copy2 fs r.source_path r.target_path with
    | none =>
      rw [hc] at h
      simp at h
    | some fs2 =>
      rw [hc] at h
      dsimp only at h
      rcases hl : applyLoop fs2 rest with ⟨fs3, done3, err3⟩
      rw [hl] at h
      simp only [Prod.mk.injEq] at h
      obtain ⟨-, h2, h3⟩ := h
      subst h3
      rw [← h2, ih fs2 fs3 done3 hl]

lemma do_action_dry_spec (mo : List Action) (fs : FS) (rs : List Result) :
    do_action mo fs rs true =
      { fs := fs
        skipped := rs.filter (fun r => decide (r.action = Action.NO_ACTION))
        processed := (mo.map (fun k => rs.filter (fun r => decide (r.action = k)))).flatten
        error := none } := by
  simp [do_action, mutationList, group_by_getGroup]

lemma do_action_commit_spec (mo : List Action) (fs : FS) (rs : List Result)
    (fs' : FS) (done : List Result) (err : Option Result)
    (h : applyLoop fs (mutationList mo (group_by rs (fun r => r.action))) = (fs', done, err)) :
    do_action mo fs rs false =
      { fs := fs'
        skipped := rs.filter (fun r => decide (r.action = Action.NO_ACTION))
        processed := done
        error := err } := by
  have hs : getGroup (group_by rs (fun r => r.action)) Action.NO_ACTION
      = rs.filter (fun r => decide (r.action = Action.NO_ACTION)) :=
    group_by_getGroup _ rs _
  simp [do_action, h, hs]

lemma foldl_append_eq_flatten (l : List (List Nat)) (a : List Nat) :
    l.foldl (fun x y => x ++ y) a = a ++ l.flatten := by
  induction l generalizing a with
  | nil => simp
  | cons x xs ih => simp [ih, List.append_assoc]

lemma readChunksAux_flatten (bs : Nat) (hbs : 0 < bs) :
    ∀ (fuel : Nat) (c : List Nat), c.length ≤ fuel →
      (readChunksAux bs fuel c).flatten = c := by
  intro fuel
  induction fuel with
  | zero =>
    intro c hc
    have hc0 : c = [] := List.eq_nil_of_length_eq_zero (Nat.le_zero.mp hc)
    subst hc0
    rfl
  | succ n ih =>
    intro c hc
    rw [readChunksAux]
    by_cases hce : c = []
    · subst hce; simp
    · obtain ⟨x, cs, rfl⟩ : ∃ x cs, c = x :: cs := by
        cases c with
        | nil => exact absurd rfl hce
        | cons x cs => exact ⟨x, cs, rfl⟩
      obtain ⟨b, rfl⟩ : ∃ b, bs = b + 1 := ⟨bs - 1, by omega⟩
      have htake : (((x :: cs).take (b + 1)).isEmpty) = false := by
        rw [List.take_succ_cons]
        rfl
      simp only [htake, Bool.false_eq_true, if_false, List.flatten_cons]
      rw [ih ((x :: cs).drop (b + 1)) (by
        rw [List.length_drop]
        have h1 : 1 ≤ (x :: cs).length := List.length_pos.mpr hce
        omega)]
      exact List.take_append_drop (b + 1) (x :: cs)

lemma get_file_hash_eq_full (sha : List Nat → String) (c : List Nat) (bs : Nat)
    (hbs : 0 < bs) : get_file_hash sha c bs = sha c := by
  rw [get_file_hash, readChunks, foldl_append_eq_flatten,
    readChunksAux_flatten bs hbs (c.length + 1) c (Nat.le_succ _)]
  rfl

lemma fsLookup_cons (e : List String × FNode) (rest : FS) (p : List String) :
    fsLookup (e :: rest) p = if e.1 = p then some e.2 else fsLookup rest p := by
  by_cases h : e.1 = p <;> simp [fsLookup, List.find?_cons, h]

lemma fsLookup_fsSet_self (fs : FS) (p : List String) (n : FNode) :
    fsLookup (fsSet fs p n) p = some n := by
  induction fs with
  | nil => simp [fsSet, fsLookup_cons, fsLookup]
  | cons e rest ih =>
    rw [fsSet]
    by_cases h : e.1 = p
    · rw [if_pos h, fsLookup_cons]
      simp
    · rw [if_neg h, fsLookup_cons, if_neg h]
      exact ih

lemma filter_action_filter_action (rs : List Result) (A k : Action) :
    (rs.filter (fun r => decide (r.action = A))).filter (fun r => decide (r.action = k)) =
      if A = k then rs.filter (fun r => decide (r.action = k)) else [] := by
  induction rs with
  | nil => simp
  | cons r rest ih =>
    by_cases h1 : r.action = A
    · by_cases h2 : A = k
      · subst h2
        simp [List.filter_cons, h1, ih]
      · have h3 : ¬ r.action = k := fun hh => h2 (h1.symm.trans hh)
        simp [List.filter_cons, h1, h2, h3, ih]
    · by_cases h2 : A = k
      · subst h2
        by_cases h3 : r.action = A
        · exact absurd h3 h1
        · simp [List.filter_cons, h1, h3, ih]
      · simp [List.filter_cons, h1, h2, ih]

lemma filter_partition_by_action (rs : List Result) (k : Action) (mo : List Action)
    (hmo : isMutationOrder mo) :
    ((rs.filter (fun r => decide (r.action = Action.NO_ACTION))) ++
        (mo.map (fun kk => rs.filter (fun r => decide (r.action = kk)))).flatten).filter
      (fun r => decide (r.action = k)) = rs.filter (fun r => decide (r.action = k)) := by
  rcases hmo with rfl | rfl <;> rcases k <;>
    simp only [List.map_cons, List.map_nil, List.flatten_cons, List.flatten_nil,
      List.append_nil, List.filter_append, filter_action_filter_action] <;>
    simp

lemma fileLookup_mem {t : FSTree} {n : String} {c : List Nat}
    (h : t.fileLookup n = some c) : (n, c) ∈ t.files := by
  rw [FSTree.fileLookup] at h
  rcases hf : t.files.find? (fun f => f.1 == n) with _ | e
  · rw [hf] at h; exact absurd h (by simp)
  · rw [hf] at h
    have hm := List.mem_of_find?_eq_some hf
    have hp : e.1 = n := by simpa using List.find?_some hf
    have hc : e.2 = c := by simpa using h
    have he : e = (n, c) := Prod.ext hp hc
    rwa [he] at hm

lemma dirLookup_mem {t : FSTree} {n : String} {sub : FSTree}
    (h : t.dirLookup n = some sub) : (n, sub) ∈ t.dirs := by
  rw [FSTree.dirLookup] at h
  rcases hf : t.dirs.find? (fun d => d.1 == n) with _ | e
  · rw [hf] at h; exact absurd h (by simp)
  · rw [hf] at h
    have hm := List.mem_of_find?_eq_some hf
    have hp : e.1 = n := by simpa using List.find?_some hf
    have hc : e.2 = sub := by simpa using h
    have he : e = (n, sub) := Prod.ext hp hc
    rwa [he] at hm

lemma wf_names_nodup {files : List (String × List Nat)} {dirs : List (String × FSTree)}
    (hw : wfTree (FSTree.node files dirs) = true) :
    (files.map (fun f => f.1) ++ dirs.map (fun d => d.1)).Nodup := by
  rw [wfTree] at hw
  simp only [Bool.and_eq_true, decide_eq_true_eq] at hw
  exact hw.1

lemma wf_not_both {t : FSTree} (n : String) (hw : wfTree t = true) :
    ¬ ((t.fileLookup n).isSome ∧ (t.dirLookup n).isSome) := by
  rintro ⟨hf, hd⟩
  cases t with
  | node files dirs =>
    have hnd := wf_names_nodup hw
    obtain ⟨c, hc⟩ := Option.isSome_iff_exists.mp hf
    obtain ⟨s, hs⟩ := Option.isSome_iff_exists.mp hd
    have h1 : n ∈ files.map (fun f => f.1) :=
      List.mem_map_of_mem (fun f => f.1) (fileLookup_mem hc)
    have h2 : n ∈ dirs.map (fun d => d.1) :=
      List.mem_map_of_mem (fun d => d.1) (dirLookup_mem hs)
    exact (List.nodup_append.mp hnd).2.2 h1 h2

lemma wfDirs_mem : ∀ (l : List (String × FSTree)), wfDirs l = true →
    ∀ n sub, (n, sub) ∈ l → wfTree sub = true := by
  intro l
  induction l with
  | nil => intro _ n sub hm; simp at hm
  | cons e rest ih =>
    intro hl n sub hm
    obtain ⟨en, es⟩ := e
    rw [wfDirs] at hl
    simp only [Bool.and_eq_true] at hl
    obtain ⟨h1, h2⟩ := hl
    rcases List.mem_cons.mp hm with heq | hmem
    · rw [Prod.mk.injEq] at heq
      obtain ⟨-, rfl⟩ := heq
      exact h1
    · exact ih h2 n sub hmem

lemma wfTree_sub {t : FSTree} {n : String} {sub : FSTree}
    (hw : wfTree t = true) (h : (n, sub) ∈ t.dirs) : wfTree sub = true := by
  cases t with
  | node files dirs =>
    rw [wfTree] at hw
    simp only [Bool.and_eq_true] at hw
    exact wfDirs_mem dirs hw.2 n sub h

lemma fileAt_singleton (t : FSTree) (n : String) : fileAt t [n] = t.fileLookup n := rfl

lemma fileAt_cons_cons (t : FSTree) (n m : String) (rest : List String) :
    fileAt t (n :: m :: rest) = match t.dirLookup n with
      | some sub => fileAt sub (m :: rest)
      | none => none := rfl

lemma fileAt_none_of_dirAt (p : List String) :
    ∀ t u, wfTree t = true → dirAt t p = some u → fileAt t p = none := by
  induction p with
  | nil => intro t u _ _; rfl
  | cons n rest ih =>
    intro t u hw h
    rw [dirAt] at h
    rcases hd : t.dirLookup n with _ | sub
    · rw [hd] at h; simp at h
    · rw [hd] at h
      dsimp only at h
      cases rest with
      | nil =>
        rw [fileAt_singleton]
        rcases hf : t.fileLookup n with _ | c
        · rfl
        · exact absurd ⟨by simp [hf], by simp [hd]⟩ (wf_not_both n hw)
      | cons m rest2 =>
        rw [fileAt_cons_cons, hd]
        exact ih sub u (wfTree_sub hw (dirLookup_mem hd)) h

/- ------------------------------------------------------------------ -/
/- Claim theorems.                                                     -/
/- ------------------------------------------------------------------ -/

/-- Claim C1: for every regular file discovered under the source root,
`compare_directories` assigns exactly one of the three actions: `COPY` iff no
regular file exists at the derived target path; `NO_ACTION` iff the target
file exists and the two fingerprints agree in all three fields; `MODIFY` iff
the target file exists and the fingerprints differ.  The three conditions are
mutually exclusive and exhaustive for every discovered (source file, target
path) pair. -/
theorem c1_action_classification (sha : List Nat → String) (sroot troot : List String)
    (src tgt : FSTree) :
    ∀ res ∈ compare_directories sha sroot troot src tgt, ∃ r c,
      (r, c) ∈ walkFiles src ∧
      res.source_path = sroot ++ r ∧ res.target_path = troot ++ r ∧
      (res.action = Action.COPY ↔ fileAt tgt r = none) ∧
      (res.action = Action.NO_ACTION ↔ ∃ tc, fileAt tgt r = some tc ∧
        get_file_metadata sha (sroot ++ r) c = get_file_metadata sha (troot ++ r) tc) ∧
      (res.action = Action.MODIFY ↔ ∃ tc, fileAt tgt r = some tc ∧
        ¬ get_file_metadata sha (sroot ++ r) c = get_file_metadata sha (troot ++ r) tc) := by
  intro res hres
  rw [compare_directories] at hres
  obtain ⟨rc, hmem, rfl⟩ := List.mem_map.mp hres
  refine ⟨rc.1, rc.2, hmem, rfl, rfl, ?_⟩
  rcases h : fileAt tgt rc.1 with _ | tc
  · have hA : classifyFile sha sroot troot tgt rc.1 rc.2 = Action.COPY := by
      rw [classifyFile, h]
    simp [hA, h]
  · by_cases hm : get_file_metadata sha (sroot ++ rc.1) rc.2 =
        get_file_metadata sha (troot ++ rc.1) tc
    · have hA : classifyFile sha sroot troot tgt rc.1 rc.2 = Action.NO_ACTION := by
        rw [classifyFile, h]
        dsimp only
        rw [if_pos hm]
      simp [hA, h, hm]
    · have hA : classifyFile sha sroot troot tgt rc.1 rc.2 = Action.MODIFY := by
        rw [classifyFile, h]
        dsimp only
        rw [if_neg hm]
      simp [hA, h, hm]

/-- Witness for C1 at a concrete source/target pair. -/
theorem c1_action_classification_witness :
    (⟨["s", "a.txt"], ["t", "a.txt"], Action.COPY⟩ : Result) ∈
      compare_directories (fun _ => "") ["s"] ["t"]
        (FSTree.node [("a.txt", [1])] []) (FSTree.node [] []) ∧
    ∃ r c,
      (r, c) ∈ walkFiles (FSTree.node [("a.txt", [1])] []) ∧
      (⟨["s", "a.txt"], ["t", "a.txt"], Action.COPY⟩ : Result).source_path = ["s"] ++ r ∧
      (⟨["s", "a.txt"], ["t", "a.txt"], Action.COPY⟩ : Result).target_path = ["t"] ++ r ∧
      ((⟨["s", "a.txt"], ["t", "a.txt"], Action.COPY⟩ : Result).action = Action.COPY ↔
        fileAt (FSTree.node [] []) r = none) ∧
      ((⟨["s", "a.txt"], ["t", "a.txt"], Action.COPY⟩ : Result).action = Action.NO_ACTION ↔
        ∃ tc, fileAt (FSTree.node [] []) r = some tc ∧
          get_file_metadata (fun _ => "") (["s"] ++ r) c =
            get_file_metadata (fun _ => "") (["t"] ++ r) tc) ∧
      ((⟨["s", "a.txt"], ["t", "a.txt"], Action.COPY⟩ : Result).action = Action.MODIFY ↔
        ∃ tc, fileAt (FSTree.node [] []) r = some tc ∧
          ¬ get_file_metadata (fun _ => "") (["s"] ++ r) c =
            get_file_metadata (fun _ => "") (["t"] ++ r) tc) :=
  ⟨by decide, c1_action_classification _ _ _ _ _ _ (by decide)⟩

/-- Claim C9: when the derived target path exists but is a directory rather
than a regular file (in a well-formed target tree), `compare_directories`
classifies the source file as `COPY`, exactly as if the target were absent —
the file branch that compares fingerprints is not taken. -/
theorem c9_dir_target_is_copy (sha : List Nat → String) (sroot troot : List String)
    (src tgt : FSTree) (r : List String) (c : List Nat) (u : FSTree)
    (hw : wfTree tgt = true) (hmem : (r, c) ∈ walkFiles src)
    (hdir : dirAt tgt r = some u) :
    classifyFile sha sroot troot tgt r c = Action.COPY ∧
    (⟨sroot ++ r, troot ++ r, Action.COPY⟩ : Result) ∈
      compare_directories sha sroot troot src tgt := by
  have hnone : fileAt tgt r = none := fileAt_none_of_dirAt r tgt u hw hdir
  have hcls : classifyFile sha sroot troot tgt r c = Action.COPY := by
    rw [classifyFile, hnone]
  refine ⟨hcls, ?_⟩
  rw [compare_directories]
  refine List.mem_map.mpr ⟨(r, c), hmem, ?_⟩
  simp [hcls]

/-- Witness for C9: the target has a directory named `a.txt` where the source
has a file. -/
theorem c9_dir_target_is_copy_witness :
    wfTree (FSTree.node [] [("a.txt", FSTree.node [("z", [9])] [])]) = true ∧
    (["a.txt"], [5]) ∈ walkFiles (FSTree.node [("a.txt", [5])] []) ∧
    dirAt (FSTree.node [] [("a.txt", FSTree.node [("z", [9])] [])]) ["a.txt"] =
      some (FSTree.node [("z", [9])] []) ∧
    (classifyFile (fun _ => "") ["s"] ["t"]
        (FSTree.node [] [("a.txt", FSTree.node [("z", [9])] [])]) ["a.txt"] [5] =
      Action.COPY ∧
    (⟨["s", "a.txt"], ["t", "a.txt"], Action.COPY⟩ : Result) ∈
      compare_directories (fun _ => "") ["s"] ["t"] (FSTree.node [("a.txt", [5])] [])
        (FSTree.node [] [("a.txt", FSTree.node [("z", [9])] [])])) :=
  ⟨by decide, by decide, rfl,
    c9_dir_target_is_copy _ _ _ _ _ _ _ _ (by decide) (by decide) rfl⟩

/-- Claim C2, counterexample: the apply step does not isolate a copy failure.
With the first entry's target parent directory missing its copy fails, and
`do_action` aborts: the second entry is never processed (and the filesystem
never gains its target) even though its own copy would have succeeded, for
either iteration order of the mutation-kind set.  No failure aggregation
takes place: the run stops at the first error. -/
theorem c2_counterexample :
    do_action [Action.COPY, Action.MODIFY]
        [(["t"], FNode.dir), (["s"], FNode.dir), (["s", "a"], FNode.file ⟨[1], 10, 7⟩)]
        [⟨["s", "a"], ["t", "sub", "a"], Action.COPY⟩, ⟨["s", "a"], ["t", "a"], Action.COPY⟩]
        false =
      ⟨[(["t"], FNode.dir), (["s"], FNode.dir), (["s", "a"], FNode.file ⟨[1], 10, 7⟩)],
        [], [], some ⟨["s", "a"], ["t", "sub", "a"], Action.COPY⟩⟩ ∧
    do_action [Action.MODIFY, Action.COPY]
        [(["t"], FNode.dir), (["s"], FNode.dir), (["s", "a"], FNode.file ⟨[1], 10, 7⟩)]
        [⟨["s", "a"], ["t", "sub", "a"], Action.COPY⟩, ⟨["s", "a"], ["t", "a"], Action.COPY⟩]
        false =
      ⟨[(["t"], FNode.dir), (["s"], FNode.dir), (["s", "a"], FNode.file ⟨[1], 10, 7⟩)],
        [], [], some ⟨["s", "a"], ["t", "sub", "a"], Action.COPY⟩⟩ ∧
    ¬ copy2 [(["t"], FNode.dir), (["s"], FNode.dir), (["s", "a"], FNode.file ⟨[1], 10, 7⟩)]
        ["s", "a"] ["t", "a"] = none := by
  decide

/-- Claim C2 (amended): a copy failure on one entry aborts the whole apply
run at that entry: the entries already processed stay processed, the failing
entry's error propagates as the run's error, and every entry after the
failing one in the mutation sequence is left unprocessed; failures are not
aggregated. -/
theorem c2_first_failure_aborts (mo : List Action) (fs : FS) (rs : List Result) (e : Result)
    (h : (do_action mo fs rs false).error = some e) :
    ∃ post, mutationList mo (group_by rs (fun r => r.action)) =
      (do_action mo fs rs false).processed ++ e :: post := by
  rcases hl : applyLoop fs (mutationList mo (group_by rs (fun r => r.action)))
    with ⟨fs2, done, err⟩
  have hd := do_action_commit_spec mo fs rs fs2 done err hl
  rw [hd] at h ⊢
  dsimp only at h ⊢
  subst h
  exact applyLoop_error_split _ fs fs2 done e hl

/-- Witness for C2's amended theorem at a concrete failing run. -/
theorem c2_first_failure_aborts_witness :
    (do_action [Action.COPY, Action.MODIFY]
        [(["t"], FNode.dir), (["s"], FNode.dir), (["s", "a"], FNode.file ⟨[1], 10, 7⟩)]
        [⟨["s", "a"], ["t", "sub", "a"], Action.COPY⟩, ⟨["s", "a"], ["t", "a"], Action.COPY⟩]
        false).error = some ⟨["s", "a"], ["t", "sub", "a"], Action.COPY⟩ ∧
    ∃ post, mutationList [Action.COPY, Action.MODIFY]
        (group_by [⟨["s", "a"], ["t", "sub", "a"], Action.COPY⟩,
          ⟨["s", "a"], ["t", "a"], Action.COPY⟩] (fun r => r.action)) =
      (do_action [Action.COPY, Action.MODIFY]
        [(["t"], FNode.dir), (["s"], FNode.dir), (["s", "a"], FNode.file ⟨[1], 10, 7⟩)]
        [⟨["s", "a"], ["t", "sub", "a"], Action.COPY⟩, ⟨["s", "a"], ["t", "a"], Action.COPY⟩]
        false).processed ++ ⟨["s", "a"], ["t", "sub", "a"], Action.COPY⟩ :: post :=
  ⟨by decide, c2_first_failure_aborts _ _ _ _ (by decide)⟩

/-- Claim C3, counterexample: with results discovered in the order COPY a,
MODIFY b, COPY c, the reported mutation sequence is not the two mutating
kinds interleaved in discovery order (a, b, c), for either iteration order of
the mutation-kind set: the kinds are reported as separate blocks. -/
theorem c3_counterexample :
    (do_action [Action.COPY, Action.MODIFY] []
        [⟨["s", "a"], ["t", "a"], Action.COPY⟩, ⟨["s", "b"], ["t", "b"], Action.MODIFY⟩,
          ⟨["s", "c"], ["t", "c"], Action.COPY⟩] true).processed ≠
      ([⟨["s", "a"], ["t", "a"], Action.COPY⟩, ⟨["s", "b"], ["t", "b"], Action.MODIFY⟩,
          ⟨["s", "c"], ["t", "c"], Action.COPY⟩] : List Result).filter
        (fun r => decide (r.action ∈ Action.mutation_options)) ∧
    (do_action [Action.MODIFY, Action.COPY] []
        [⟨["s", "a"], ["t", "a"], Action.COPY⟩, ⟨["s", "b"], ["t", "b"], Action.MODIFY⟩,
          ⟨["s", "c"], ["t", "c"], Action.COPY⟩] true).processed ≠
      ([⟨["s", "a"], ["t", "a"], Action.COPY⟩, ⟨["s", "b"], ["t", "b"], Action.MODIFY⟩,
          ⟨["s", "c"], ["t", "c"], Action.COPY⟩] : List Result).filter
        (fun r => decide (r.action ∈ Action.mutation_options)) := by
  decide

/-- Claim C3 (amended): `do_action` reports the `NO_ACTION` entries first as
a block (in discovery order), and then reports the mutating entries grouped
by kind: all entries of one mutating kind as a block, then all entries of the
other kind (which kind comes first is the unspecified iteration order of the
Python set), each block in discovery order — not the two kinds interleaved
in discovery order. -/
theorem c3_reports_grouped_by_kind (mo : List Action) (fs : FS) (rs : List Result) :
    (do_action mo fs rs true).skipped =
      rs.filter (fun r => decide (r.action = Action.NO_ACTION)) ∧
    (do_action mo fs rs true).processed =
      (mo.map (fun k => rs.filter (fun r => decide (r.action = k)))).flatten := by
  rw [do_action_dry_spec]
  exact ⟨rfl, rfl⟩

/-- Claim C4: a dry run performs zero filesystem writes — `do_action` with
`dry_run = true` returns the filesystem unchanged (and no error). -/
theorem c4_dry_run_pure (mo : List Action) (fs : FS) (rs : List Result) :
    (do_action mo fs rs true).fs = fs ∧ (do_action mo fs rs true).error = none := by
  rw [do_action_dry_spec]
  exact ⟨rfl, rfl⟩

/-- Claim C5, counterexample: a Copy into a previously nonexistent subtree
does not succeed.  The single entry's target parent directory `t/sub` does
not exist, so `shutil.copy2` raises (no parent directories are created), the
run errors, the filesystem is unchanged and the target file is absent. -/
theorem c5_counterexample :
    do_action [Action.COPY, Action.MODIFY]
        [(["t"], FNode.dir), (["s"], FNode.dir), (["s", "a"], FNode.file ⟨[1], 10, 7⟩)]
        [⟨["s", "a"], ["t", "sub", "a"], Action.COPY⟩] false =
      ⟨[(["t"], FNode.dir), (["s"], FNode.dir), (["s", "a"], FNode.file ⟨[1], 10, 7⟩)],
        [], [], some ⟨["s", "a"], ["t", "sub", "a"], Action.COPY⟩⟩ ∧
    fsLookup (do_action [Action.COPY, Action.MODIFY]
        [(["t"], FNode.dir), (["s"], FNode.dir), (["s", "a"], FNode.file ⟨[1], 10, 7⟩)]
        [⟨["s", "a"], ["t", "sub", "a"], Action.COPY⟩] false).fs
      ["t", "sub", "a"] = none := by
  decide

/-- Claim C5 (amended): when committing, for a Copy or Modify entry whose
source is a regular file and whose target is not a directory, the apply step
copies the source's bytes and metadata (modification time and permission
bits) to the target path, overwriting any existing target file — but only
when the target's parent directory already exists; when the parent is
absent, no parent directories are created: the copy raises, the run errors
and the filesystem is unchanged. -/
theorem c5_copy2_semantics (mo : List Action) (fs : FS) (r : Result) (d : FileData)
    (hmo : isMutationOrder mo)
    (hact : r.action = Action.COPY ∨ r.action = Action.MODIFY)
    (hsrc : fsLookup fs r.source_path = some (FNode.file d))
    (htgt : ¬ fsLookup fs r.target_path = some FNode.dir) :
    (fsLookup fs (dirname r.target_path) = some FNode.dir →
      do_action mo fs [r] false =
        { fs := fsSet fs r.target_path (FNode.file d)
          skipped := [], processed := [r], error := none } ∧
      fsLookup (do_action mo fs [r] false).fs r.target_path = some (FNode.file d)) ∧
    (¬ fsLookup fs (dirname r.target_path) = some FNode.dir →
      do_action mo fs [r] false = { fs := fs, skipped := [], processed := [], error := some r }) := by
  have hskip : ([r].filter (fun x => decide (x.action = Action.NO_ACTION))) = [] := by
    rcases hact with h | h <;> simp [List.filter_cons, h]
  have hmut : mutationList mo (group_by [r] (fun x => x.action)) = [r] := by
    rcases hmo with rfl | rfl <;> rcases hact with h | h <;>
      simp [mutationList, group_by_getGroup, List.filter_cons, h]
  constructor
  · intro hpar
    have hcopy : copy2 fs r.source_path r.target_path =
        some (fsSet fs r.target_path (FNode.file d)) := by
      rw [copy2, hsrc]
      dsimp only
      rw [if_neg htgt, if_pos ⟨hpar, htgt⟩]
    have hl : applyLoop fs [r] = (fsSet fs r.target_path (FNode.file d), [r], none) := by
      rw [applyLoop, hcopy]
      rfl
    have hd := do_action_commit_spec mo fs [r] (fsSet fs r.target_path (FNode.file d)) [r]
      none (by rw [hmut]; exact hl)
    rw [hskip] at hd
    refine ⟨hd, ?_⟩
    rw [hd]
    exact fsLookup_fsSet_self fs r.target_path (FNode.file d)
  · intro hpar
    have hcopy : copy2 fs r.source_path r.target_path = none := by
      rw [copy2, hsrc]
      dsimp only
      rw [if_neg htgt, if_neg (fun hcon => hpar hcon.1)]
    have hl : applyLoop fs [r] = (fs, [], some r) := by
      rw [applyLoop, hcopy]
    have hd := do_action_commit_spec mo fs [r] fs [] (some r) (by rw [hmut]; exact hl)
    rw [hskip] at hd
    exact hd

/-- Witness for C5's amended theorem at a concrete run (both branches). -/
theorem c5_copy2_semantics_witness :
    isMutationOrder [Action.COPY, Action.MODIFY] ∧
    ((⟨["s", "a"], ["t", "a"], Action.COPY⟩ : Result).action = Action.COPY ∨
      (⟨["s", "a"], ["t", "a"], Action.COPY⟩ : Result).action = Action.MODIFY) ∧
    fsLookup [(["t"], FNode.dir), (["s"], FNode.dir), (["s", "a"], FNode.file ⟨[1], 10, 7⟩)]
      (⟨["s", "a"], ["t", "a"], Action.COPY⟩ : Result).source_path =
        some (FNode.file ⟨[1], 10, 7⟩) ∧
    (¬ fsLookup [(["t"], FNode.dir), (["s"], FNode.dir), (["s", "a"], FNode.file ⟨[1], 10, 7⟩)]
      (⟨["s", "a"], ["t", "a"], Action.COPY⟩ : Result).target_path = some FNode.dir) ∧
    ((fsLookup [(["t"], FNode.dir), (["s"], FNode.dir), (["s", "a"], FNode.file ⟨[1], 10, 7⟩)]
        (dirname (⟨["s", "a"], ["t", "a"], Action.COPY⟩ : Result).target_path) =
          some FNode.dir →
      do_action [Action.COPY, Action.MODIFY]
          [(["t"], FNode.dir), (["s"], FNode.dir), (["s", "a"], FNode.file ⟨[1], 10, 7⟩)]
          [⟨["s", "a"], ["t", "a"], Action.COPY⟩] false =
        { fs := fsSet [(["t"], FNode.dir), (["s"], FNode.dir),
            (["s", "a"], FNode.file ⟨[1], 10, 7⟩)] ["t", "a"] (FNode.file ⟨[1], 10, 7⟩)
          skipped := [], processed := [⟨["s", "a"], ["t", "a"], Action.COPY⟩], error := none } ∧
      fsLookup (do_action [Action.COPY, Action.MODIFY]
          [(["t"], FNode.dir), (["s"], FNode.dir), (["s", "a"], FNode.file ⟨[1], 10, 7⟩)]
          [⟨["s", "a"], ["t", "a"], Action.COPY⟩] false).fs
        (⟨["s", "a"], ["t", "a"], Action.COPY⟩ : Result).target_path =
          some (FNode.file ⟨[1], 10, 7⟩)) ∧
    (¬ fsLookup [(["t"], FNode.dir), (["s"], FNode.dir), (["s", "a"], FNode.file ⟨[1], 10, 7⟩)]
        (dirname (⟨["s", "a"], ["t", "a"], Action.COPY⟩ : Result).target_path) =
          some FNode.dir →
      do_action [Action.COPY, Action.MODIFY]
          [(["t"], FNode.dir), (["s"], FNode.dir), (["s", "a"], FNode.file ⟨[1], 10, 7⟩)]
          [⟨["s", "a"], ["t", "a"], Action.COPY⟩] false =
        { fs := [(["t"], FNode.dir), (["s"], FNode.dir), (["s", "a"], FNode.file ⟨[1], 10, 7⟩)]
          skipped := [], processed := [], error := some ⟨["s", "a"], ["t", "a"], Action.COPY⟩ })) :=
  ⟨by decide, by decide, by decide, by decide,
    c5_copy2_semantics _ _ _ _ (by decide) (by decide) (by decide) (by decide)⟩

/-- Claim C7, counterexample: the extension field is not the substring after
the basename's last dot.  For the dotfile `.bashrc`, `os.path.splitext` (and
hence `get_file_metadata`) yields the empty extension, while the substring
after the last dot is `bashrc` (and for `a.txt` the code keeps the dot:
`.txt`). -/
theorem c7_counterexample :
    (get_file_metadata (fun _ => "h") ["home", ".bashrc"] [104]).file_extension = "" ∧
    extAfterLastDot ".bashrc" = "bashrc" ∧
    (get_file_metadata (fun _ => "h") ["d", "a.txt"] [104]).file_extension = ".txt" ∧
    extAfterLastDot "a.txt" = "txt" := by
  decide

/-- Claim C7 (amended): the fingerprint's extension field is the extension as
computed by `os.path.splitext`: the basename's suffix starting at (and
including) its last dot, empty when the basename has no dot or only leading
dots; the size field is the exact byte count; and the hash field is the
digest (the abstract `sha`, standing for hex SHA-256) of the full file
content, obtained by streaming it in 4096-byte chunks until end-of-file. -/
theorem c7_fingerprint_fields (sha : List Nat → String) (p : List String) (c : List Nat) :
    get_file_metadata sha p c =
      { file_extension := splitextExt (p.getLastD "")
        file_size := c.length
        file_hash := sha c } := by
  rw [get_file_metadata, pathExt, get_file_hash_eq_full sha c 4096 (by norm_num)]

/-- Claim C8: fingerprint determinism — the fingerprint computed at a path is
a function of the path and the file's bytes alone, so two computations over
the same unmodified content (in possibly different surrounding trees) yield
equal values in all three fields. -/
theorem c8_fingerprint_deterministic (sha : List Nat → String) (t1 t2 : FSTree)
    (p : List String) (h : fileAt t1 p = fileAt t2 p) :
    metadataAt sha t1 p = metadataAt sha t2 p := by
  rw [metadataAt, metadataAt, h]

/-- Witness for C8 at a concrete pair of trees sharing a file. -/
theorem c8_fingerprint_deterministic_witness :
    fileAt (FSTree.node [("a", [1])] []) ["a"] =
      fileAt (FSTree.node [("a", [1])] [("d", FSTree.node [] [])]) ["a"] ∧
    metadataAt (fun _ => "x") (FSTree.node [("a", [1])] []) ["a"] =
      metadataAt (fun _ => "x") (FSTree.node [("a", [1])] [("d", FSTree.node [] [])]) ["a"] :=
  ⟨by decide, c8_fingerprint_deterministic _ _ _ _ (by decide)⟩

/-- Claim C10: grouping is stable — for each single action kind, the entries
of that kind in the full reported sequence (the `NO_ACTION` block followed by
the processed mutation entries) appear in exactly the relative order they had
in the input results list, whether dry-running or applying without failure. -/
theorem c10_per_kind_order_stable (mo : List Action) (fs : FS) (rs : List Result)
    (dry : Bool) (k : Action) (hmo : isMutationOrder mo)
    (herr : (do_action mo fs rs dry).error = none) :
    ((do_action mo fs rs dry).skipped ++ (do_action mo fs rs dry).processed).filter
        (fun r => decide (r.action = k)) =
      rs.filter (fun r => decide (r.action = k)) := by
  cases dry with
  | false =>
    rcases hl : applyLoop fs (mutationList mo (group_by rs (fun r => r.action)))
      with ⟨fs2, done, err⟩
    have hd := do_action_commit_spec mo fs rs fs2 done err hl
    rw [hd] at herr ⊢
    dsimp only at herr ⊢
    subst herr
    have hdone := applyLoop_no_error _ fs fs2 done hl
    subst hdone
    simp only [mutationList, group_by_getGroup]
    exact filter_partition_by_action rs k mo hmo
  | true =>
    rw [do_action_dry_spec]
    dsimp only
    exact filter_partition_by_action rs k mo hmo

/-- Witness for C10 at a concrete mixed results list. -/
theorem c10_per_kind_order_stable_witness :
    isMutationOrder [Action.COPY, Action.MODIFY] ∧
    (do_action [Action.COPY, Action.MODIFY] []
        [⟨["a"], ["b"], Action.NO_ACTION⟩, ⟨["c"], ["d"], Action.COPY⟩] true).error = none ∧
    ((do_action [Action.COPY, Action.MODIFY] []
        [⟨["a"], ["b"], Action.NO_ACTION⟩, ⟨["c"], ["d"], Action.COPY⟩] true).skipped ++
      (do_action [Action.COPY, Action.MODIFY] []
        [⟨["a"], ["b"], Action.NO_ACTION⟩, ⟨["c"], ["d"], Action.COPY⟩] true).processed).filter
        (fun r => decide (r.action = Action.COPY)) =
      ([⟨["a"], ["b"], Action.NO_ACTION⟩, ⟨["c"], ["d"], Action.COPY⟩] : List Result).filter
        (fun r => decide (r.action = Action.COPY)) :=
  ⟨by decide, by decide,
    c10_per_kind_order_stable _ _ _ _ _ (by decide) (by decide)⟩

/- ------------------------------------------------------------------ -/
/- Infrastructure for C6 (directory equality).                         -/
/- ------------------------------------------------------------------ -/

lemma mem_names_of_fileLookup {t : FSTree} {n : String} {c : List Nat}
    (h : t.fileLookup n = some c) : n ∈ t.names := by
  rw [FSTree.names]
  exact List.mem_append_left _ (List.mem_map_of_mem (fun f => f.1) (fileLookup_mem h))

lemma mem_names_of_dirLookup {t : FSTree} {n : String} {sub : FSTree}
    (h : t.dirLookup n = some sub) : n ∈ t.names := by
  rw [FSTree.names]
  exact List.mem_append_right _ (List.mem_map_of_mem (fun d => d.1) (dirLookup_mem h))

lemma lookup_of_mem_names {t : FSTree} {n : String} (h : n ∈ t.names) :
    (t.fileLookup n).isSome ∨ (t.dirLookup n).isSome := by
  rw [FSTree.names] at h
  rcases List.mem_append.mp h with hf | hd
  · left
    obtain ⟨f, hfm, hfe⟩ := List.mem_map.mp hf
    have hfind : (t.files.find? (fun f => f.1 == n)).isSome :=
      List.find?_isSome.mpr ⟨f, hfm, by simp [hfe]⟩
    rw [FSTree.fileLookup]
    simpa using hfind
  · right
    obtain ⟨d, hdm, hde⟩ := List.mem_map.mp hd
    have hfind : (t.dirs.find? (fun d => d.1 == n)).isSome :=
      List.find?_isSome.mpr ⟨d, hdm, by simp [hde]⟩
    rw [FSTree.dirLookup]
    simpa using hfind

lemma find?_key_of_nodup {γ : Type} (l : List (String × γ)) (n : String) (x : γ)
    (hnd : (l.map (fun e => e.1)).Nodup) (hm : (n, x) ∈ l) :
    l.find? (fun e => e.1 == n) = some (n, x) := by
  induction l with
  | nil => simp at hm
  | cons e rest ih =>
    rw [List.map_cons, List.nodup_cons] at hnd
    obtain ⟨hne, hnd2⟩ := hnd
    rcases List.mem_cons.mp hm with heq | hmem
    · rw [← heq]
      exact List.find?_cons_of_pos _ (by simp)
    · have hne2 : ¬ e.1 = n := by
        intro hh
        refine hne ?_
        rw [hh]
        exact List.mem_map_of_mem (fun e => e.1) hmem
      have hb3 : (e.1 == n) = false := by
        rw [beq_eq_false_iff_ne]
        exact hne2
      simp only [List.find?_cons, hb3]
      exact ih hnd2 hmem

lemma fileLookup_of_mem {t : FSTree} {n : String} {c : List Nat}
    (hw : wfTree t = true) (h : (n, c) ∈ t.files) : t.fileLookup n = some c := by
  cases t with
  | node files dirs =>
    have hnd := wf_names_nodup hw
    have hfk : (files.map (fun f => f.1)).Nodup := (List.nodup_append.mp hnd).1
    rw [FSTree.fileLookup]
    have hfind := find?_key_of_nodup files n c hfk h
    simp only [FSTree.files]
    rw [hfind]
    rfl

lemma dirLookup_of_mem {t : FSTree} {n : String} {sub : FSTree}
    (hw : wfTree t = true) (h : (n, sub) ∈ t.dirs) : t.dirLookup n = some sub := by
  cases t with
  | node files dirs =>
    have hnd := wf_names_nodup hw
    have hdk : (dirs.map (fun d => d.1)).Nodup := (List.nodup_append.mp hnd).2.1
    rw [FSTree.dirLookup]
    have hfind := find?_key_of_nodup dirs n sub hdk h
    simp only [FSTree.dirs]
    rw [hfind]
    rfl

lemma noIgnored_parts {files : List (String × List Nat)} {dirs : List (String × FSTree)}
    (h : noIgnored (FSTree.node files dirs) = true) :
    (∀ f ∈ files, ¬ f.1 ∈ DEFAULT_IGNORES) ∧ (∀ d ∈ dirs, ¬ d.1 ∈ DEFAULT_IGNORES) ∧
      noIgnoredDirs dirs = true := by
  rw [noIgnored] at h
  simp only [Bool.and_eq_true, List.all_eq_true, decide_eq_true_eq] at h
  exact ⟨h.1.1, h.1.2, h.2⟩

lemma noIgnored_listing {t : FSTree} (h : noIgnored t = true) : t.listing = t.names := by
  cases t with
  | node files dirs =>
    obtain ⟨h1, h2, -⟩ := noIgnored_parts h
    rw [FSTree.listing]
    apply List.filter_eq_self.mpr
    intro n hn
    rw [FSTree.names] at hn
    simp only [decide_eq_true_eq]
    rcases List.mem_append.mp hn with hf | hd
    · obtain ⟨f, hfm, rfl⟩ := List.mem_map.mp hf
      exact h1 f hfm
    · obtain ⟨d, hdm, rfl⟩ := List.mem_map.mp hd
      exact h2 d hdm

lemma noIgnoredDirs_mem : ∀ (l : List (String × FSTree)), noIgnoredDirs l = true →
    ∀ n sub, (n, sub) ∈ l → noIgnored sub = true := by
  intro l
  induction l with
  | nil => intro _ n sub hm; simp at hm
  | cons e rest ih =>
    intro hl n sub hm
    obtain ⟨en, es⟩ := e
    rw [noIgnoredDirs] at hl
    simp only [Bool.and_eq_true] at hl
    rcases List.mem_cons.mp hm with heq | hmem
    · rw [Prod.mk.injEq] at heq
      obtain ⟨-, rfl⟩ := heq
      exact hl.1
    · exact ih hl.2 n sub hmem

lemma noIgnored_sub {t : FSTree} {n : String} {sub : FSTree}
    (h : noIgnored t = true) (hm : (n, sub) ∈ t.dirs) : noIgnored sub = true := by
  cases t with
  | node files dirs =>
    rw [noIgnored] at h
    simp only [Bool.and_eq_true] at h
    exact noIgnoredDirs_mem dirs h.2 n sub hm

lemma mem_commonNames {a b : FSTree} {n : String} :
    n ∈ commonNames a b ↔ n ∈ a.names ∧ n ∈ b.names := by
  rw [commonNames]
  simp [List.mem_filter]

lemma noTypeClash_parts {afiles : List (String × List Nat)} {adirs : List (String × FSTree)}
    {b : FSTree} (h : noTypeClash (FSTree.node afiles adirs) b = true) :
    (∀ n ∈ commonNames (FSTree.node afiles adirs) b,
      ¬ (((FSTree.node afiles adirs).fileLookup n).isSome ∧ (b.dirLookup n).isSome) ∧
      ¬ (((FSTree.node afiles adirs).dirLookup n).isSome ∧ (b.fileLookup n).isSome)) ∧
    noTypeClashDirs b adirs = true := by
  rw [noTypeClash] at h
  simp only [Bool.and_eq_true, List.all_eq_true, decide_eq_true_eq] at h
  exact ⟨fun n hn => (h.1 n hn), h.2⟩

lemma noTypeClash_common {a b : FSTree} {n : String} (h : noTypeClash a b = true)
    (ha : n ∈ a.names) (hb : n ∈ b.names) :
    ¬ ((a.fileLookup n).isSome ∧ (b.dirLookup n).isSome) ∧
    ¬ ((a.dirLookup n).isSome ∧ (b.fileLookup n).isSome) := by
  cases a with
  | node afiles adirs =>
    exact (noTypeClash_parts h).1 n (mem_commonNames.mpr ⟨ha, hb⟩)

lemma noTypeClashDirs_mem : ∀ (l : List (String × FSTree)) (b : FSTree),
    noTypeClashDirs b l = true → ∀ n sub bsub, (n, sub) ∈ l →
      b.dirLookup n = some bsub → noTypeClash sub bsub = true := by
  intro l
  induction l with
  | nil => intro b _ n sub bsub hm; simp at hm
  | cons e rest ih =>
    intro b hl n sub bsub hm hb
    obtain ⟨en, es⟩ := e
    rw [noTypeClashDirs] at hl
    simp only [Bool.and_eq_true] at hl
    rcases List.mem_cons.mp hm with heq | hmem
    · rw [Prod.mk.injEq] at heq
      obtain ⟨rfl, rfl⟩ := heq
      have h1 := hl.1
      rw [hb] at h1
      exact h1
    · exact ih b hl.2 n sub bsub hmem hb

lemma noTypeClash_sub {a b : FSTree} {n : String} {sub bsub : FSTree}
    (h : noTypeClash a b = true) (hm : (n, sub) ∈ a.dirs)
    (hb : b.dirLookup n = some bsub) : noTypeClash sub bsub = true := by
  cases a with
  | node afiles adirs =>
    exact noTypeClashDirs_mem adirs b (noTypeClash_parts h).2 n sub bsub hm hb

lemma mem_entryPathsDirs {l : List (String × FSTree)} {p : List String} :
    p ∈ entryPathsDirs l ↔ ∃ n sub, (n, sub) ∈ l ∧
      (p = [n] ∨ ∃ q, p = n :: q ∧ q ∈ entryPaths sub) := by
  induction l with
  | nil => simp [entryPathsDirs]
  | cons e rest ih =>
    obtain ⟨en, es⟩ := e
    rw [entryPathsDirs]
    simp only [List.mem_append, List.mem_cons, List.mem_map, ih]
    constructor
    · rintro ((h | ⟨q, hq, rfl⟩) | ⟨n, sub, hm, hrest⟩)
      · exact ⟨en, es, Or.inl rfl, Or.inl h⟩
      · exact ⟨en, es, Or.inl rfl, Or.inr ⟨q, rfl, hq⟩⟩
      · exact ⟨n, sub, Or.inr hm, hrest⟩
    · rintro ⟨n, sub, (heq | hm), hcase⟩
      · rw [Prod.mk.injEq] at heq
        obtain ⟨rfl, rfl⟩ := heq
        rcases hcase with rfl | ⟨q, rfl, hq⟩
        · exact Or.inl (Or.inl rfl)
        · exact Or.inl (Or.inr ⟨q, hq, rfl⟩)
      · exact Or.inr ⟨n, sub, hm, hcase⟩

lemma entryPaths_ne_nil {t : FSTree} {p : List String} (h : p ∈ entryPaths t) : p ≠ [] := by
  cases t with
  | node files dirs =>
    rw [entryPaths] at h
    rcases List.mem_append.mp h with hf | hd
    · obtain ⟨f, -, rfl⟩ := List.mem_map.mp hf
      simp
    · obtain ⟨n, sub, -, hcase⟩ := mem_entryPathsDirs.mp hd
      rcases hcase with rfl | ⟨q, rfl, -⟩ <;> simp

lemma mem_entryPaths_iff {t : FSTree} {p : List String} :
    p ∈ entryPaths t ↔
      (∃ n, p = [n] ∧ n ∈ t.names) ∨
      (∃ n q sub, p = n :: q ∧ ¬ q = [] ∧ (n, sub) ∈ t.dirs ∧ q ∈ entryPaths sub) := by
  cases t with
  | node files dirs =>
    rw [entryPaths]
    constructor
    · intro h
      rcases List.mem_append.mp h with hf | hd
      · obtain ⟨f, hfm, rfl⟩ := List.mem_map.mp hf
        refine Or.inl ⟨f.1, rfl, ?_⟩
        rw [FSTree.names]
        exact List.mem_append_left _ (List.mem_map_of_mem (fun f => f.1) hfm)
      · obtain ⟨n, sub, hm, hcase⟩ := mem_entryPathsDirs.mp hd
        rcases hcase with rfl | ⟨q, rfl, hq⟩
        · refine Or.inl ⟨n, rfl, ?_⟩
          rw [FSTree.names]
          exact List.mem_append_right _ (List.mem_map_of_mem (fun d => d.1) hm)
        · exact Or.inr ⟨n, q, sub, rfl, entryPaths_ne_nil hq, hm, hq⟩
    · rintro (⟨n, rfl, hn⟩ | ⟨n, q, sub, rfl, hq0, hm, hq⟩)
      · rw [FSTree.names] at hn
        rcases List.mem_append.mp hn with hf | hd
        · obtain ⟨f, hfm, rfl⟩ := List.mem_map.mp hf
          exact List.mem_append_left _ (List.mem_map_of_mem (fun f => [f.1]) hfm)
        · obtain ⟨d, hdm, rfl⟩ := List.mem_map.mp hd
          refine List.mem_append_right _ (mem_entryPathsDirs.mpr ⟨d.1, d.2, ?_, Or.inl rfl⟩)
          rw [Prod.mk.eta]
          exact hdm
      · exact List.mem_append_right _ (mem_entryPathsDirs.mpr ⟨n, sub, hm, Or.inr ⟨q, rfl, hq⟩⟩)

lemma singleton_mem_entryPaths {t : FSTree} {n : String} :
    [n] ∈ entryPaths t ↔ n ∈ t.names := by
  rw [mem_entryPaths_iff]
  constructor
  · rintro (⟨m, hm, hmem⟩ | ⟨m, q, sub, heq, hq0, -, -⟩)
    · obtain rfl : n = m := by
        rw [List.cons.injEq] at hm
        exact hm.1
      exact hmem
    · rw [List.cons.injEq] at heq
      exact absurd heq.2.symm hq0
  · intro h
    exact Or.inl ⟨n, rfl, h⟩

lemma cons_mem_entryPaths {t : FSTree} {n : String} {q : List String} (hq : ¬ q = []) :
    (n :: q) ∈ entryPaths t ↔ ∃ sub, (n, sub) ∈ t.dirs ∧ q ∈ entryPaths sub := by
  rw [mem_entryPaths_iff]
  constructor
  · rintro (⟨m, hm, -⟩ | ⟨m, q2, sub, heq, -, hmem, hq2⟩)
    · rw [List.cons.injEq] at hm
      exact absurd hm.2 hq
    · rw [List.cons.injEq] at heq
      obtain ⟨rfl, rfl⟩ := heq
      exact ⟨sub, hmem, hq2⟩
  · rintro ⟨sub, hmem, hq2⟩
    exact Or.inr ⟨n, q, sub, rfl, hq, hmem, hq2⟩

lemma fileAt_mem_entryPaths : ∀ (q : List String) (t : FSTree) (c : List Nat),
    fileAt t q = some c → q ∈ entryPaths t := by
  intro q
  induction q with
  | nil => intro t c h; simp [fileAt] at h
  | cons n rest ih =>
    intro t c h
    cases rest with
    | nil =>
      rw [fileAt_singleton] at h
      exact singleton_mem_entryPaths.mpr (mem_names_of_fileLookup h)
    | cons m rest2 =>
      rw [fileAt_cons_cons] at h
      rcases hd : t.dirLookup n with _ | sub
      · rw [hd] at h; simp at h
      · rw [hd] at h
        dsimp only at h
        exact (cons_mem_entryPaths (by simp)).mpr ⟨sub, dirLookup_mem hd, ih sub c h⟩

lemma mem_common {a b : FSTree} {n : String} :
    n ∈ common a b ↔ n ∈ a.listing ∧ n ∈ b.listing := by
  rw [common]
  simp [List.mem_filter]

lemma left_only_nil_iff {a b : FSTree} :
    left_only a b = [] ↔ ∀ n ∈ a.listing, n ∈ b.listing := by
  rw [left_only, List.filter_eq_nil_iff]
  simp

lemma right_only_nil_iff {a b : FSTree} :
    right_only a b = [] ↔ ∀ n ∈ b.listing, n ∈ a.listing := by
  rw [right_only, List.filter_eq_nil_iff]
  simp

lemma mem_common_files {a b : FSTree} {n : String} :
    n ∈ common_files a b ↔
      n ∈ common a b ∧ (a.fileLookup n).isSome ∧ (b.fileLookup n).isSome := by
  rw [common_files]
  simp [List.mem_filter]

lemma mem_common_dirs {a b : FSTree} {n : String} :
    n ∈ common_dirs a b ↔
      n ∈ common a b ∧ (a.dirLookup n).isSome ∧ (b.dirLookup n).isSome := by
  rw [common_dirs]
  simp [List.mem_filter]

lemma diff_files_nil_iff {a b : FSTree} :
    diff_files a b = [] ↔ ∀ n ∈ common_files a b, a.fileLookup n = b.fileLookup n := by
  rw [diff_files, List.filter_eq_nil_iff]
  simp

lemma size_pos (t : FSTree) : 1 ≤ FSTree.size t := by
  cases t with
  | node files dirs =>
    rw [FSTree.size]
    omega

lemma sizeDirs_mem_le : ∀ (l : List (String × FSTree)) (n : String) (sub : FSTree),
    (n, sub) ∈ l → FSTree.size sub ≤ sizeDirs l := by
  intro l
  induction l with
  | nil => intro n sub h; simp at h
  | cons e rest ih =>
    intro n sub h
    obtain ⟨en, es⟩ := e
    rw [sizeDirs]
    rcases List.mem_cons.mp h with heq | hmem
    · rw [Prod.mk.injEq] at heq
      obtain ⟨-, rfl⟩ := heq
      omega
    · have := ih n sub hmem
      omega

lemma size_sub_lt {t : FSTree} {n : String} {sub : FSTree} (h : (n, sub) ∈ t.dirs) :
    FSTree.size sub < FSTree.size t := by
  cases t with
  | node files dirs =>
    rw [FSTree.size]
    have := sizeDirs_mem_le dirs n sub h
    omega

lemma match_files_eq_true {oa ob : Option (List Nat)} :
    (match oa, ob with
      | some ca, some cb => decide (ca = cb)
      | _, _ => true) = true ↔
      ∀ ca cb, oa = some ca → ob = some cb → ca = cb := by
  cases oa <;> cases ob <;> simp

lemma specEqual_iff {a b : FSTree} :
    specEqual a b = true ↔
      (∀ p ∈ entryPaths a, p ∈ entryPaths b) ∧
      (∀ p ∈ entryPaths b, p ∈ entryPaths a) ∧
      (∀ p ∈ entryPaths a, ∀ ca cb, fileAt a p = some ca → fileAt b p = some cb → ca = cb) := by
  rw [specEqual]
  simp only [Bool.and_eq_true, List.all_eq_true, decide_eq_true_eq]
  constructor
  · rintro ⟨⟨h1, h2⟩, h3⟩
    exact ⟨h1, h2, fun p hp ca cb hca hcb => (match_files_eq_true.mp (h3 p hp)) ca cb hca hcb⟩
  · rintro ⟨h1, h2, h3⟩
    exact ⟨⟨h1, h2⟩, fun p hp =>
      match_files_eq_true.mpr (fun ca cb hca hcb => h3 p hp ca cb hca hcb)⟩

lemma are_directories_equal_node_iff {afiles : List (String × List Nat)}
    {adirs : List (String × FSTree)} {b : FSTree} :
    are_directories_equal (FSTree.node afiles adirs) b = true ↔
      (left_only (FSTree.node afiles adirs) b = [] ∧
       right_only (FSTree.node afiles adirs) b = [] ∧
       diff_files (FSTree.node afiles adirs) b = [] ∧
       commonDirsEqual (common_dirs (FSTree.node afiles adirs) b) b adirs = true) := by
  rw [are_directories_equal]
  cases hcond : ((left_only (FSTree.node afiles adirs) b).isEmpty &&
      (right_only (FSTree.node afiles adirs) b).isEmpty &&
      (diff_files (FSTree.node afiles adirs) b).isEmpty) with
  | true =>
    simp only [Bool.and_eq_true, List.isEmpty_iff] at hcond
    simp [hcond.1.1, hcond.1.2, hcond.2]
  | false =>
    constructor
    · intro h
      simp at h
    · rintro ⟨h1, h2, h3, -⟩
      simp [h1, h2, h3] at hcond

lemma commonDirsEqual_iff {cds : List String} {b : FSTree} :
    ∀ l, commonDirsEqual cds b l = true ↔
      ∀ n sub, (n, sub) ∈ l → n ∈ cds →
        ∀ bsub, b.dirLookup n = some bsub → are_directories_equal sub bsub = true := by
  intro l
  induction l with
  | nil => simp [commonDirsEqual]
  | cons e rest ih =>
    obtain ⟨en, es⟩ := e
    rw [commonDirsEqual]
    simp only [Bool.and_eq_true, ih]
    constructor
    · rintro ⟨hhead, htail⟩ n sub hm hcds bsub hb
      rcases List.mem_cons.mp hm with heq | hmem
      · rw [Prod.mk.injEq] at heq
        obtain ⟨rfl, rfl⟩ := heq
        rw [if_pos hcds, hb] at hhead
        exact hhead
      · exact htail n sub hmem hcds bsub hb
    · intro hall
      constructor
      · by_cases hcds : en ∈ cds
        · rw [if_pos hcds]
          rcases hb : b.dirLookup en with _ | bsub
          · rfl
          · exact hall en es (List.mem_cons_self _ _) hcds bsub hb
        · rw [if_neg hcds]
      · exact fun n sub hm hcds bsub hb =>
          hall n sub (List.mem_cons_of_mem _ hm) hcds bsub hb

lemma equal_iff_spec : ∀ (k : Nat) (a b : FSTree), FSTree.size a ≤ k →
    wfTree a = true → wfTree b = true → noIgnored a = true → noIgnored b = true →
    noTypeClash a b = true →
    (are_directories_equal a b = true ↔ specEqual a b = true) := by
  intro k
  induction k with
  | zero =>
    intro a b hsz
    exact absurd hsz (by have := size_pos a; omega)
  | succ k ih =>
    intro a b hsz hwa hwb hia hib hnc
    cases a with
    | node afiles adirs =>
    rw [are_directories_equal_node_iff, specEqual_iff]
    have hla := noIgnored_listing hia
    have hlb := noIgnored_listing hib
    constructor
    · rintro ⟨hL, hR, hD, hRec⟩
      have hLn : ∀ n ∈ (FSTree.node afiles adirs).names, n ∈ b.names := by
        intro n hn
        have h2 := left_only_nil_iff.mp hL n (by rw [hla]; exact hn)
        rwa [hlb] at h2
      have hRn : ∀ n ∈ b.names, n ∈ (FSTree.node afiles adirs).names := by
        intro n hn
        have h2 := right_only_nil_iff.mp hR n (by rw [hlb]; exact hn)
        rwa [hla] at h2
      have hRec2 : ∀ n sub bsub, (n, sub) ∈ adirs → b.dirLookup n = some bsub →
          are_directories_equal sub bsub = true := by
        intro n sub bsub hm hb
        have hda : (FSTree.node afiles adirs).dirLookup n = some sub := dirLookup_of_mem hwa hm
        have hcd : n ∈ common_dirs (FSTree.node afiles adirs) b := by
          rw [mem_common_dirs]
          refine ⟨?_, by simp [hda], by simp [hb]⟩
          rw [mem_common, hla, hlb]
          exact ⟨mem_names_of_dirLookup hda, mem_names_of_dirLookup hb⟩
        exact (commonDirsEqual_iff adirs).mp hRec n sub hm hcd bsub hb
      have hSub : ∀ n sub bsub, (n, sub) ∈ adirs → b.dirLookup n = some bsub →
          specEqual sub bsub = true := by
        intro n sub bsub hm hb
        have hlt : FSTree.size sub < FSTree.size (FSTree.node afiles adirs) :=
          size_sub_lt (t := FSTree.node afiles adirs) hm
        exact (ih sub bsub (by omega) (wfTree_sub hwa hm)
          (wfTree_sub hwb (dirLookup_mem hb)) (noIgnored_sub hia hm)
          (noIgnored_sub hib (dirLookup_mem hb)) (noTypeClash_sub hnc hm hb)).mp
          (hRec2 n sub bsub hm hb)
      refine ⟨?_, ?_, ?_⟩
      · intro p hp
        rcases mem_entryPaths_iff.mp hp with ⟨n, rfl, hn⟩ | ⟨n, q, sub, rfl, hq0, hm, hq⟩
        · exact singleton_mem_entryPaths.mpr (hLn n hn)
        · have hda : (FSTree.node afiles adirs).dirLookup n = some sub := dirLookup_of_mem hwa hm
          have hnb : n ∈ b.names := hLn n (mem_names_of_dirLookup hda)
          have hbd : ∃ bsub, b.dirLookup n = some bsub := by
            rcases lookup_of_mem_names hnb with hf | hd
            · exact absurd ⟨by simp [hda], hf⟩
                (noTypeClash_common hnc (mem_names_of_dirLookup hda) hnb).2
            · exact Option.isSome_iff_exists.mp hd
          obtain ⟨bsub, hb⟩ := hbd
          have hspec := hSub n sub bsub hm hb
          have hq2 : q ∈ entryPaths bsub := (specEqual_iff.mp hspec).1 q hq
          exact (cons_mem_entryPaths hq0).mpr ⟨bsub, dirLookup_mem hb, hq2⟩
      · intro p hp
        rcases mem_entryPaths_iff.mp hp with ⟨n, rfl, hn⟩ | ⟨n, q, bsub, rfl, hq0, hm, hq⟩
        · exact singleton_mem_entryPaths.mpr (hRn n hn)
        · have hdb : b.dirLookup n = some bsub := dirLookup_of_mem hwb hm
          have hna : n ∈ (FSTree.node afiles adirs).names := hRn n (mem_names_of_dirLookup hdb)
          have had : ∃ sub, (FSTree.node afiles adirs).dirLookup n = some sub := by
            rcases lookup_of_mem_names hna with hf | hd
            · exact absurd ⟨hf, by simp [hdb]⟩
                (noTypeClash_common hnc hna (mem_names_of_dirLookup hdb)).1
            · exact Option.isSome_iff_exists.mp hd
          obtain ⟨sub, hda⟩ := had
          have hspec := hSub n sub bsub (dirLookup_mem hda) hdb
          have hq2 : q ∈ entryPaths sub := (specEqual_iff.mp hspec).2.1 q hq
          exact (cons_mem_entryPaths hq0).mpr ⟨sub, dirLookup_mem hda, hq2⟩
      · intro p hp ca cb hca hcb
        rcases mem_entryPaths_iff.mp hp with ⟨n, rfl, hn⟩ | ⟨n, q, sub, rfl, hq0, hm, hq⟩
        · rw [fileAt_singleton] at hca hcb
          have hcf : n ∈ common_files (FSTree.node afiles adirs) b := by
            rw [mem_common_files]
            refine ⟨?_, by simp [hca], by simp [hcb]⟩
            rw [mem_common, hla, hlb]
            exact ⟨mem_names_of_fileLookup hca, mem_names_of_fileLookup hcb⟩
          have heq := diff_files_nil_iff.mp hD n hcf
          rw [hca, hcb] at heq
          injection heq with hh
        · obtain ⟨m, q2, rfl⟩ : ∃ m q2, q = m :: q2 := by
            cases q with
            | nil => exact absurd rfl hq0
            | cons m q2 => exact ⟨m, q2, rfl⟩
          rw [fileAt_cons_cons] at hca hcb
          have hda : (FSTree.node afiles adirs).dirLookup n = some sub := dirLookup_of_mem hwa hm
          rw [hda] at hca
          dsimp only at hca
          rcases hdb : b.dirLookup n with _ | bsub
          · rw [hdb] at hcb
            simp at hcb
          · rw [hdb] at hcb
            dsimp only at hcb
            have hspec := hSub n sub bsub hm hdb
            exact (specEqual_iff.mp hspec).2.2 (m :: q2) hq ca cb hca hcb
    · rintro ⟨hS1, hS2, hS3⟩
      have hLn : ∀ n ∈ (FSTree.node afiles adirs).names, n ∈ b.names := by
        intro n hn
        exact singleton_mem_entryPaths.mp (hS1 [n] (singleton_mem_entryPaths.mpr hn))
      have hRn : ∀ n ∈ b.names, n ∈ (FSTree.node afiles adirs).names := by
        intro n hn
        exact singleton_mem_entryPaths.mp (hS2 [n] (singleton_mem_entryPaths.mpr hn))
      refine ⟨?_, ?_, ?_, ?_⟩
      · rw [left_only_nil_iff]
        intro n hn
        rw [hlb]
        exact hLn n (by rwa [hla] at hn)
      · rw [right_only_nil_iff]
        intro n hn
        rw [hla]
        exact hRn n (by rwa [hlb] at hn)
      · rw [diff_files_nil_iff]
        intro n hn
        rw [mem_common_files] at hn
        obtain ⟨-, hfa, hfb⟩ := hn
        obtain ⟨ca, hca⟩ := Option.isSome_iff_exists.mp hfa
        obtain ⟨cb, hcb⟩ := Option.isSome_iff_exists.mp hfb
        have heq : ca = cb := by
          refine hS3 [n] (singleton_mem_entryPaths.mpr (mem_names_of_fileLookup hca)) ca cb ?_ ?_
          · rw [fileAt_singleton]
            exact hca
          · rw [fileAt_singleton]
            exact hcb
        rw [hca, hcb, heq]
      · rw [commonDirsEqual_iff]
        intro n sub hm hcd bsub hb
        have hda : (FSTree.node afiles adirs).dirLookup n = some sub := dirLookup_of_mem hwa hm
        have hspec : specEqual sub bsub = true := by
          rw [specEqual_iff]
          refine ⟨?_, ?_, ?_⟩
          · intro q hq
            have hp : (n :: q) ∈ entryPaths (FSTree.node afiles adirs) :=
              (cons_mem_entryPaths (entryPaths_ne_nil hq)).mpr ⟨sub, hm, hq⟩
            have hpb := hS1 (n :: q) hp
            obtain ⟨bsub2, hmb2, hq2⟩ :=
              (cons_mem_entryPaths (entryPaths_ne_nil hq)).mp hpb
            have hb2 : b.dirLookup n = some bsub2 := dirLookup_of_mem hwb hmb2
            rw [hb] at hb2
            injection hb2 with hh
            rw [hh]
            exact hq2
          · intro q hq
            have hp : (n :: q) ∈ entryPaths b :=
              (cons_mem_entryPaths (entryPaths_ne_nil hq)).mpr ⟨bsub, dirLookup_mem hb, hq⟩
            have hpa := hS2 (n :: q) hp
            obtain ⟨sub2, hma2, hq2⟩ :=
              (cons_mem_entryPaths (entryPaths_ne_nil hq)).mp hpa
            have ha2 : (FSTree.node afiles adirs).dirLookup n = some sub2 :=
              dirLookup_of_mem hwa hma2
            rw [hda] at ha2
            injection ha2 with hh
            rw [hh]
            exact hq2
          · intro q hq ca cb hca hcb
            obtain ⟨m, q2, rfl⟩ : ∃ m q2, q = m :: q2 := by
              cases q with
              | nil => exact absurd rfl (entryPaths_ne_nil hq)
              | cons m q2 => exact ⟨m, q2, rfl⟩
            have hpa : fileAt (FSTree.node afiles adirs) (n :: m :: q2) = some ca := by
              rw [fileAt_cons_cons, hda]
              exact hca
            have hpb : fileAt b (n :: m :: q2) = some cb := by
              rw [fileAt_cons_cons, hb]
              exact hcb
            refine hS3 (n :: m :: q2) ?_ ca cb hpa hpb
            exact (cons_mem_entryPaths (by simp)).mpr ⟨sub, hm, hq⟩
        have hlt : FSTree.size sub < FSTree.size (FSTree.node afiles adirs) :=
          size_sub_lt (t := FSTree.node afiles adirs) hm
        exact (ih sub bsub (by omega) (wfTree_sub hwa hm)
          (wfTree_sub hwb (dirLookup_mem hb)) (noIgnored_sub hia hm)
          (noIgnored_sub hib (dirLookup_mem hb)) (noTypeClash_sub hnc hm hb)).mpr hspec

/-- Claim C6, counterexample: `are_directories_equal` returns true on trees
whose relative-path sets differ.  The left tree has a regular file `x`, the
right tree a directory `x` containing a file `y`: `dircmp` puts `x` into
`common_funny` (type mismatch), which the code never inspects, so it returns
true although the trees are not equal (the right tree has relative path
`x/y`, the left does not, and no file is byte-identical to anything). -/
theorem c6_counterexample :
    are_directories_equal (FSTree.node [("x", [49])] [])
      (FSTree.node [] [("x", FSTree.node [("y", [50])] [])]) = true ∧
    specEqual (FSTree.node [("x", [49])] [])
      (FSTree.node [] [("x", FSTree.node [("y", [50])] [])]) = false := by
  decide

/-- Claim C6 (amended): provided the two trees are well-formed, contain no
entry named in `filecmp.DEFAULT_IGNORES` (which `dircmp` silently skips, as
the code passes `ignore=None`), and have no common name that is a file on one
side and a directory on the other (such names land in `common_funny`, which
the code never checks), `are_directories_equal(dir1, dir2)` returns true if
and only if the two trees contain identical sets of relative paths and every
pair of regular files at the same relative path is byte-identical. -/
theorem c6_equal_iff_spec (a b : FSTree) (hwa : wfTree a = true) (hwb : wfTree b = true)
    (hia : noIgnored a = true) (hib : noIgnored b = true)
    (hnc : noTypeClash a b = true) :
    are_directories_equal a b = specEqual a b := by
  have h := equal_iff_spec (FSTree.size a) a b le_rfl hwa hwb hia hib hnc
  cases hc : are_directories_equal a b with
  | true =>
    rw [hc] at h
    exact (h.mp rfl).symm
  | false =>
    rw [hc] at h
    cases hs : specEqual a b with
    | true =>
      rw [hs] at h
      exact absurd (h.mpr rfl) (by simp)
    | false => rfl

/-- Witness for C6's amended theorem at a concrete pair of clean trees. -/
theorem c6_equal_iff_spec_witness :
    wfTree (FSTree.node [("f", [1, 2])] [("d", FSTree.node [("g", [3])] [])]) = true ∧
    noIgnored (FSTree.node [("f", [1, 2])] [("d", FSTree.node [("g", [3])] [])]) = true ∧
    noTypeClash (FSTree.node [("f", [1, 2])] [("d", FSTree.node [("g", [3])] [])])
      (FSTree.node [("f", [1, 2])] [("d", FSTree.node [("g", [3])] [])]) = true ∧
    are_directories_equal (FSTree.node [("f", [1, 2])] [("d", FSTree.node [("g", [3])] [])])
        (FSTree.node [("f", [1, 2])] [("d", FSTree.node [("g", [3])] [])]) =
      specEqual (FSTree.node [("f", [1, 2])] [("d", FSTree.node [("g", [3])] [])])
        (FSTree.node [("f", [1, 2])] [("d", FSTree.node [("g", [3])] [])]) :=
  ⟨by decide, by decide, by decide,
    c6_equal_iff_spec _ _ (by decide) (by decide) (by decide) (by decide) (by decide)⟩

end Comparator
